import Mathlib

/-!
Verification of the dense bitset library (a fixed 64-bit bitset `DenseBitSet`
over one machine word, and a growable bitset `DenseBitSetExtended` over a
vector of 64-bit words).

The Rust code is shallowly embedded: `u64` words become `Nat` values kept
below `2 ^ 64` (with explicit `% 2 ^ 64` wherever a Rust operation wraps),
`Vec<u64>` becomes `List Nat`, and every operation that can panic (failed
assertion, out-of-bounds index, arithmetic underflow or shift overflow under
debug semantics) returns `Option`, with `none` standing for the panic.
-/

/-- The fuelled worker for `count_ones`; the fuel only forces structural
termination and never runs out when it starts at the argument itself. -/
def count_ones_go : Nat → Nat → Nat
  | 0, _ => 0
  | fuel + 1, n => if n = 0 then 0 else n % 2 + count_ones_go fuel (n / 2)

/-- Population count of a natural number (the embedding of
`u64::count_ones`, summing binary digits). -/
def count_ones (n : Nat) : Nat := count_ones_go n n

/-- The fuelled worker for `trailing_zeros`; the fuel only forces structural
termination and never runs out when it starts at the (nonzero) argument. -/
def trailing_zeros_go : Nat → Nat → Nat
  | 0, _ => 0
  | fuel + 1, n => if n % 2 = 1 then 0 else trailing_zeros_go fuel (n / 2) + 1

/-- The embedding of `u64::trailing_zeros` (64 on the zero word); on a power
of two this is its base-2 logarithm. -/
def trailing_zeros (n : Nat) : Nat :=
  if n = 0 then 64 else trailing_zeros_go n n

/-- The embedding of `u64::swap_bytes`: reverses the order of the eight bytes
of a 64-bit word. -/
def swapBytes64 (v : Nat) : Nat :=
  ((v >>> 56) &&& 0xFF) |||
  (((v >>> 48) &&& 0xFF) <<< 8) |||
  (((v >>> 40) &&& 0xFF) <<< 16) |||
  (((v >>> 32) &&& 0xFF) <<< 24) |||
  (((v >>> 24) &&& 0xFF) <<< 32) |||
  (((v >>> 16) &&& 0xFF) <<< 40) |||
  (((v >>> 8) &&& 0xFF) <<< 48) |||
  ((v &&& 0xFF) <<< 56)

/-- `DenseBitSet` (u64impl.rs): a bitset over a single 64-bit word. -/
structure DenseBitSet where
  state : Nat
  deriving DecidableEq, Repr

namespace DenseBitSet

/-- `DenseBitSet::from_integer`. -/
def from_integer (i : Nat) : DenseBitSet := ⟨i⟩

/-- `DenseBitSet::to_integer`. -/
def to_integer (bs : DenseBitSet) : Nat := bs.state

/-- `DenseBitSet::insert(position, length, value)` (u64impl.rs:132-146).
Returns `none` on a failed assertion; note the code ORs `value << position`
into the cleared field without masking `value` to `length` bits. -/
def insert (bs : DenseBitSet) (position length value : Nat) : Option DenseBitSet :=
  if ¬ (position + length ≤ 64) then none
  else if length = 0 then none
  else if length < 64 then
    let u := (2 ^ 64 - 1) ^^^ (((1 <<< length) - 1) <<< position)
    some ⟨(bs.state &&& u) ||| ((value <<< position) % 2 ^ 64)⟩
  else
    some ⟨value⟩

/-- `DenseBitSet::reverse` (u64impl.rs:213-222): 1-, 2- and 4-bit swaps
followed by a byte swap.  Each left shift wraps at 64 bits as in `u64`. -/
def reverse (bs : DenseBitSet) : DenseBitSet :=
  let v := bs.state
  let v := ((v >>> 1) &&& 0x5555555555555555) |||
           (((v &&& 0x5555555555555555) <<< 1) % 2 ^ 64)
  let v := ((v >>> 2) &&& 0x3333333333333333) |||
           (((v &&& 0x3333333333333333) <<< 2) % 2 ^ 64)
  let v := ((v >>> 4) &&& 0x0F0F0F0F0F0F0F0F) |||
           (((v &&& 0x0F0F0F0F0F0F0F0F) <<< 4) % 2 ^ 64)
  ⟨swapBytes64 v⟩

end DenseBitSet

/-- `DenseBitSetExtended` (vec64impl.rs): a growable bitset backed by a
vector of 64-bit words (`state`, least-significant word first) and a logical
bit length `size`. -/
structure DenseBitSetExtended where
  state : List Nat
  size : Nat
  deriving DecidableEq, Repr

instance : Inhabited DenseBitSetExtended := ⟨⟨[], 0⟩⟩

namespace DenseBitSetExtended

/-- `DenseBitSetExtended::new`. -/
def new : DenseBitSetExtended := ⟨[], 0⟩

/-- `DenseBitSetExtended::from_dense_bitset`. -/
def from_dense_bitset (dbs : DenseBitSet) : DenseBitSetExtended :=
  ⟨[dbs.to_integer], 64⟩

/-- `DenseBitSetExtended::get_size`. -/
def get_size (v : DenseBitSetExtended) : Nat := v.size

/-- The private helper `get` (vec64impl.rs:403-408): word at `index`, or 0
when the index is beyond the stored words. -/
def get (v : DenseBitSetExtended) (index : Nat) : Nat :=
  v.state.getD index 0

/-- `BitSet::get_bit for DenseBitSetExtended` (vec64impl.rs:449-458).
Positions strictly beyond `size` read as `false`; otherwise the code indexes
`state[position / 64]` directly, which panics (`none`) when that word does
not exist. -/
def get_bit (v : DenseBitSetExtended) (position : Nat) : Option Bool :=
  if position > v.size then some false
  else
    let idx := position / 64
    let offset := position % 64
    if h : idx < v.state.length then
      some (Nat.testBit (v.state.get ⟨idx, h⟩) offset)
    else none

/-- `BitSet::set_bit for DenseBitSetExtended` (vec64impl.rs:420-446).
Fails (`none`) when `position / 64 ≥ 1000` (the 64000-bit cap assertion).
Pushes zero words up to the target index only when inserting a `true` bit;
always updates `size` to `position + 1` when `position ≥ size`. -/
def set_bit (v : DenseBitSetExtended) (position : Nat) (value : Bool) :
    Option DenseBitSetExtended :=
  let idx := position / 64
  let offset := position % 64
  if 1000 ≤ idx then none
  else
    let st :=
      if v.state.length ≤ idx then
        if value then
          let grown := v.state ++ List.replicate (idx + 1 - v.state.length) 0
          grown.set idx (grown.getD idx 0 ||| (1 <<< offset))
        else v.state
      else if value then
        v.state.set idx (v.state.getD idx 0 ||| (1 <<< offset))
      else
        v.state.set idx (v.state.getD idx 0 &&& ((2 ^ 64 - 1) ^^^ (1 <<< offset)))
    some ⟨st, if position ≥ v.size then position + 1 else v.size⟩

/-- `BitSet::get_weight for DenseBitSetExtended` (vec64impl.rs:461-467):
the sum of the population counts of all stored words, with no masking of the
final word. -/
def get_weight (v : DenseBitSetExtended) : Nat :=
  (v.state.map count_ones).sum

/-- `BitSet::reset for DenseBitSetExtended`. -/
def reset (_v : DenseBitSetExtended) : DenseBitSetExtended := ⟨[], 0⟩

/-- `DenseBitSetExtended::extract_u64(position, length)` (vec64impl.rs:131-173).
Asserts `0 < length ≤ 64`; returns 0 when reading past `size`; the straddling
branch indexes `state[idx]` directly (panic when absent), unlike the
single-word branches which go through `get`. -/
def extract_u64 (v : DenseBitSetExtended) (position length : Nat) : Option Nat :=
  if ¬ (length ≤ 64) then none
  else if length = 0 then none
  else if position ≥ v.size then some 0
  else
    let idx := position / 64
    let offset := position % 64
    let actual_length := if position + length > v.size then v.size - position else length
    if actual_length + offset < 64 then
      some ((v.get idx >>> offset) &&& ((1 <<< actual_length) - 1))
    else if actual_length + offset = 64 then
      some (v.get idx >>> offset)
    else
      let remainder := actual_length + offset - 64
      match v.state.get? idx with
      | none => none
      | some w =>
        let lsb := w >>> offset
        if v.state.length = idx + 1 then some lsb
        else
          match v.state.get? (idx + 1) with
          | none => none
          | some w2 =>
            let msb := w2 &&& ((1 <<< remainder) - 1)
            some ((((msb <<< (64 - offset)) % 2 ^ 64) ||| lsb))

/-- `DenseBitSetExtended::subset(position, length)` (vec64impl.rs:185-203):
a fresh bitset of logical length `length` collected by 64-bit extractions. -/
def subset (v : DenseBitSetExtended) (position length : Nat) :
    Option DenseBitSetExtended :=
  if length = 0 then some ⟨[], 0⟩
  else do
    let segments := 1 + (length - 1) / 64
    let words ← (List.range segments).mapM
      (fun l => v.extract_u64 (l * 64 + position) 64)
    some ⟨words, length⟩

/-- `DenseBitSetExtended::insert_u64(value, position, length)`
(vec64impl.rs:240-278).  Grows the word vector to cover `position + length`,
sets `size = max size (position + length)`, then writes; note the code never
masks `value` to `length` bits before ORing it in.  `none` models the
underflow panic of `position + length - 1` when both are zero. -/
def insert_u64 (v : DenseBitSetExtended) (value position length : Nat) :
    Option DenseBitSetExtended :=
  if position + length = 0 then none
  else
    let idx := position / 64
    let offset := position % 64
    let needed := 1 + (position + length - 1) / 64
    let st := if needed > v.state.length
      then v.state ++ List.replicate (needed - v.state.length) 0
      else v.state
    let size := max v.size (position + length)
    if offset = 0 ∧ length = 64 then
      some ⟨st.set idx value, size⟩
    else if offset + length - 1 < 64 then
      let u := (2 ^ 64 - 1) ^^^ (((1 <<< length) - 1) <<< offset)
      some ⟨st.set idx ((st.getD idx 0 &&& u) ||| ((value <<< offset) % 2 ^ 64)), size⟩
    else
      let lsb := ((value &&& ((1 <<< (64 - offset)) - 1)) <<< offset) % 2 ^ 64
      let mask_lsb := (2 ^ 64 - 1) >>> (64 - offset)
      let msb := value >>> (64 - offset)
      let mask_msb := ((2 ^ 64 - 1) <<< ((position + length) % 64)) % 2 ^ 64
      let st1 := st.set idx ((st.getD idx 0 &&& mask_lsb) ||| lsb)
      let st2 := st1.set (idx + 1) ((st1.getD (idx + 1) 0 &&& mask_msb) ||| msb)
      some ⟨st2, size⟩

/-- `DenseBitSetExtended::insert(other, position, length)`
(vec64impl.rs:215-230): strided `insert_u64` calls; the loop bound is
`l = length / 64 + 1`, and the `length % 64 == 0` branch runs all `l`
iterations, reading `other.state[i]` (panic when absent). -/
def insert (self other : DenseBitSetExtended) (position length : Nat) :
    Option DenseBitSetExtended :=
  let l := length / 64 + 1
  let size_before_insertion := self.size
  let step := fun (acc : DenseBitSetExtended) (i : Nat) => do
    match other.state.get? i with
    | none => none
    | some w => acc.insert_u64 w (position + i * 64) 64
  if length % 64 = 0 then do
    let acc ← (List.range l).foldlM step self
    some ⟨acc.state, max size_before_insertion (position + length)⟩
  else do
    let acc ← (List.range (l - 1)).foldlM step self
    match other.state.get? (l - 1) with
    | none => none
    | some w => do
      let acc ← acc.insert_u64 w (position + (l - 1) * 64) (length % 64)
      some ⟨acc.state, max size_before_insertion (position + length)⟩

/-- `DenseBitSetExtended::reverse` (vec64impl.rs:291-302): bit-reverses every
word through `DenseBitSet::reverse` and reverses the word order; `size` is
unchanged. -/
def reverse (v : DenseBitSetExtended) : DenseBitSetExtended :=
  ⟨(v.state.map
      (fun s => ((DenseBitSet.from_integer s).reverse).to_integer)).reverse,
   v.size⟩

/-- `Shl for DenseBitSetExtended` (vec64impl.rs:676-689): builds a fresh
bitset by copying every logical bit `i` of `self` to `i + rhs`. -/
def shl (v : DenseBitSetExtended) (rhs : Nat) : Option DenseBitSetExtended :=
  (List.range v.size).foldlM
    (fun acc i => do
      let b ← v.get_bit i
      acc.set_bit (i + rhs) b)
    ⟨[], 0⟩

/-- `Shr for DenseBitSetExtended` (vec64impl.rs:711-732): shifting by at
least `size` yields the empty bitset, otherwise a fresh bitset collects the
surviving bits. -/
def shr (v : DenseBitSetExtended) (rhs : Nat) : Option DenseBitSetExtended :=
  if rhs ≥ v.size then some ⟨[], 0⟩
  else
    (List.range (v.size - rhs)).foldlM
      (fun acc i => do
        let b ← v.get_bit (i + rhs)
        acc.set_bit i b)
      ⟨[], 0⟩

/-- `DenseBitSetExtended::rotl(shift)` (vec64impl.rs:307-322).  The code
first reduces `shift` modulo `size` (a division-by-zero panic when
`size == 0`), short-circuits a zero rotation, and otherwise reinserts the
bits pushed past the original length at the bottom. -/
def rotl (v : DenseBitSetExtended) (shift : Nat) : Option DenseBitSetExtended :=
  if v.size = 0 then none
  else
    let shift_amount := shift % v.size
    let size_before_shift := v.size
    if shift_amount = 0 then some v
    else do
      let shifted0 ← v.shl shift
      let shifted ← shifted0.subset 0 size_before_shift
      let extra ← v.subset (size_before_shift - shift_amount) shift_amount
      shifted.insert extra 0 shift_amount

/-- `DenseBitSetExtended::rotr(shift)` (vec64impl.rs:325-340): the mirror of
`rotl`, reinserting the low bits at the top. -/
def rotr (v : DenseBitSetExtended) (shift : Nat) : Option DenseBitSetExtended :=
  if v.size = 0 then none
  else
    let shift_amount := shift % v.size
    let size_before_shift := v.size
    if shift_amount = 0 then some v
    else do
      let extra ← v.subset 0 shift_amount
      let shifted ← v.shr shift_amount
      shifted.insert extra (size_before_shift - shift_amount) shift_amount

/-- `ShrAssign for DenseBitSetExtended` (vec64impl.rs:734-752).  When
`rhs ≥ size` the code resets the bitset but does not return: it then drops
`rhs / 64` leading words (panicking on an empty vector) and runs the word
loop `0..(l - 1)` (whose bound underflows when `l == 0`); a zero `rhs % 64`
with at least two words would shift by 64 (overflow panic). -/
def shr_assign (v : DenseBitSetExtended) (rhs : Nat) : Option DenseBitSetExtended :=
  let v1 := if rhs ≥ v.size then v.reset else v
  let to_drop := rhs / 64
  let actual_shift := rhs % 64
  if v1.state.length < to_drop then none
  else
    let st := v1.state.drop to_drop
    let l := st.length
    if l = 0 then none
    else if 2 ≤ l ∧ actual_shift = 0 then none
    else
      let st2 := (List.range l).map (fun i =>
        if i + 1 < l then
          (st.getD i 0 >>> actual_shift) |||
            ((st.getD (i + 1) 0 <<< (64 - actual_shift)) % 2 ^ 64)
        else st.getD i 0 >>> actual_shift)
      some ⟨st2, v1.size - rhs⟩

/-- `ShlAssign for DenseBitSetExtended` (vec64impl.rs:691-709): in-place left
shift; pushes one extra word when the logical bits would overflow the stored
words, then shifts word-by-word and prepends `rhs / 64` zero words.  `none`
models the `0..(l - 1)` underflow when the vector is empty and the
`<< (64 - 0)` overflow panic when `rhs % 64 == 0` with at least two words. -/
def shl_assign (v : DenseBitSetExtended) (rhs : Nat) : Option DenseBitSetExtended :=
  let trailing_zeros := rhs / 64
  let actual_shift := rhs % 64
  if v.state.length * 64 < v.size then none
  else
  let st := if rhs > v.state.length * 64 - v.size then v.state ++ [0] else v.state
  let l := st.length
  if l = 0 then none
  else if 2 ≤ l ∧ actual_shift = 0 then none
  else
    let st2 := (List.range l).map (fun i =>
      if i = 0 then (st.getD 0 0 <<< actual_shift) % 2 ^ 64
      else ((st.getD i 0 <<< actual_shift) % 2 ^ 64) |||
        (st.getD (i - 1) 0 >>> (64 - actual_shift)))
    some ⟨List.replicate trailing_zeros 0 ++ st2, v.size + rhs⟩

/-- `BitAnd for DenseBitSetExtended` (vec64impl.rs:563-579): word-wise AND up
to the shorter operand; the result size is the minimum of the sizes. -/
def bitand (a b : DenseBitSetExtended) : DenseBitSetExtended :=
  ⟨List.zipWith (fun x y => x &&& y) a.state b.state, min a.size b.size⟩

/-- The word list of `BitOr for DenseBitSetExtended` (vec64impl.rs:592-616):
word-wise OR up to the longer operand, a missing word acting as zero. -/
def orWords : List Nat → List Nat → List Nat
  | [], ys => ys
  | xs, [] => xs
  | x :: xs, y :: ys => (x ||| y) :: orWords xs ys

/-- `BitOr for DenseBitSetExtended`: the result size is the maximum of the
sizes. -/
def bitor (a b : DenseBitSetExtended) : DenseBitSetExtended :=
  ⟨orWords a.state b.state, max a.size b.size⟩

/-- `PartialEq for DenseBitSetExtended` (vec64impl.rs:518-530): sizes must
match, then the loop compares `self.state[i]` with `other.state[i]` for every
`i < self.state.len()`, indexing `other.state` unchecked (panic, `none`, when
`other` stores fewer words and no earlier mismatch returned `false`). -/
def dbseEq (a b : DenseBitSetExtended) : Option Bool :=
  if a.size ≠ b.size then some false
  else go a.state b.state
where
  /-- The comparison loop of `PartialEq`. -/
  go : List Nat → List Nat → Option Bool
  | [], _ => some true
  | _ :: _, [] => none
  | x :: xs, y :: ys => if x ≠ y then some false else go xs ys

end DenseBitSetExtended

/-- The value of a digit character under Rust's `char::to_digit`-style
parsing used by `u64::from_str_radix`: decimal digits, then lowercase and
uppercase letters. -/
def charDigit (c : Char) : Option Nat :=
  if '0' ≤ c ∧ c ≤ '9' then some (c.toNat - 48)
  else if 'a' ≤ c ∧ c ≤ 'z' then some (c.toNat - 87)
  else if 'A' ≤ c ∧ c ≤ 'Z' then some (c.toNat - 55)
  else none

/-- The embedding of `u64::from_str_radix`: fails on an empty string, on a
character that is not a digit below `radix`, and on 64-bit overflow. -/
def parseRadix (radix : Nat) (s : List Char) : Option Nat :=
  if s = [] then none
  else
    s.foldlM
      (fun acc c => do
        let d ← charDigit c
        if d < radix then
          let acc2 := acc * radix + d
          if acc2 < 2 ^ 64 then some acc2 else none
        else none)
      0

/-- The chunking loop of `DenseBitSetExtended::from_string`
(vec64impl.rs:366-381): strips `chunk` characters from the right end while
more than `chunk` remain, each full chunk contributing one word and 64 bits
of `size`; the final short chunk contributes `len * log_radix` bits.
Returns the word list and the accumulated size.  The fuel argument only
forces structural termination: every iteration consumes at least one
character (the caller always passes `chunk = 64 / log2 radix ≥ 12`), so fuel
starting at the string length never runs out. -/
def fromStringLoop_go (radix log_radix chunk : Nat) :
    Nat → List Char → Option (List Nat × Nat)
  | 0, cur => if cur = [] then some ([], 0) else none
  | fuel + 1, cur =>
    if cur = [] then some ([], 0)
    else if chunk < cur.length then do
      let ls := cur.drop (cur.length - chunk)
      let ms := cur.take (cur.length - chunk)
      let val ← parseRadix radix ls
      let (rest, sz) ← fromStringLoop_go radix log_radix chunk fuel ms
      some (val :: rest, sz + 64)
    else do
      let val ← parseRadix radix cur
      some ([val], cur.length * log_radix)

/-- The chunking loop of `from_string`, started with enough fuel for its
input. -/
def fromStringLoop (radix log_radix chunk : Nat) (cur : List Char) :
    Option (List Nat × Nat) :=
  fromStringLoop_go radix log_radix chunk cur.length cur

namespace DenseBitSetExtended

/-- `DenseBitSetExtended::from_string(s, radix)` (vec64impl.rs:353-383).
Panics (`none`) unless `radix` is a power of two in `[2, 32]`; `log_radix`
is `trailing_zeros` of the radix, which for a power of two is its base-2
logarithm. -/
def from_string (s : List Char) (radix : Nat) : Option DenseBitSetExtended :=
  if count_ones radix ≠ 1 then none
  else if ¬ (1 < radix) then none
  else if ¬ (radix ≤ 32) then none
  else do
    let log_radix := trailing_zeros radix
    let chunk_size := 64 / log_radix
    let (state, size) ← fromStringLoop radix log_radix chunk_size s
    some ⟨state, size⟩

end DenseBitSetExtended

/-- The 64-character binary print of one word, most significant bit first
(the embedding of Rust's 064b format on a `u64`). -/
def wordStr (w : Nat) : List Char :=
  (List.range 64).map (fun i => if Nat.testBit w (63 - i) then '1' else '0')

namespace DenseBitSetExtended

/-- `BitSet::to_string for DenseBitSetExtended` (vec64impl.rs:476-498), as a
character list: one 64-character block per word, the last stored word masked
to `size % 64` bits when that remainder is nonzero, blocks emitted most
significant word first; a vector with no words prints a single zero block. -/
def to_string (v : DenseBitSetExtended) : List Char :=
  if v.state = [] then wordStr 0
  else if v.size % 64 = 0 then
    ((v.state.map wordStr).reverse).flatten
  else
    let l := v.state.length
    let bss := (v.state.take (l - 1)).map wordStr ++
      [wordStr (v.state.getD (l - 1) 0 &&& ((1 <<< (v.size % 64)) - 1))]
    (bss.reverse).flatten

/-- The exact word-count discipline of a well-formed vector: the stored
words are precisely the `ceil (size / 64)` words covering the logical bits.
Every vector produced by the constructors satisfies this. -/
def WF (v : DenseBitSetExtended) : Prop :=
  v.state.length = (v.size + 63) / 64

instance (v : DenseBitSetExtended) : Decidable (WF v) := by
  unfold WF; infer_instance

/-- The structural invariant exactly as the specification states it:
the word count is `ceil (size / 64)` whenever `size > 0`, and the word list
may be empty only when `size == 0`. -/
def Invariant (v : DenseBitSetExtended) : Prop :=
  (0 < v.size → v.state.length = (v.size + 63) / 64) ∧
  (v.state = [] → v.size = 0)

instance (v : DenseBitSetExtended) : Decidable (Invariant v) := by
  unfold Invariant; infer_instance

/-- Every stored word fits in 64 bits, as every Rust `u64` does. -/
def WF64 (v : DenseBitSetExtended) : Prop :=
  ∀ w ∈ v.state, w < 2 ^ 64

instance (v : DenseBitSetExtended) : Decidable (WF64 v) := by
  unfold WF64; infer_instance

/-- The weight formula asserted by the specification (stated from the spec
text, to compare against the implementation's `get_weight`): the sum of the
population counts of the stored words with the last word masked to the low
`size % 64` bits, the full word when `size % 64 == 0`. -/
def claimedWeight (v : DenseBitSetExtended) : Nat :=
  if v.size % 64 = 0 then (v.state.map count_ones).sum
  else (v.state.dropLast.map count_ones).sum +
    count_ones (v.state.getLast?.getD 0 &&& ((1 <<< (v.size % 64)) - 1))

end DenseBitSetExtended


open DenseBitSetExtended

section ClaimProofs

/-! Helper lemmas shared by several claims. -/

theorem count_ones_go_irrel :
    ∀ f1 f2 n, n ≤ f1 → n ≤ f2 → count_ones_go f1 n = count_ones_go f2 n := by
  intro f1
  induction f1 with
  | zero =>
    intro f2 n h1 _
    have hn : n = 0 := by omega
    subst hn
    cases f2 <;> simp [count_ones_go]
  | succ f ih =>
    intro f2 n h1 h2
    cases f2 with
    | zero =>
      have hn : n = 0 := by omega
      subst hn
      simp [count_ones_go]
    | succ g =>
      by_cases hn : n = 0
      · subst hn; simp [count_ones_go]
      · simp only [count_ones_go, if_neg hn]
        rw [ih g (n / 2) (by omega) (by omega)]

theorem count_ones_eq (n : Nat) :
    count_ones n = if n = 0 then 0 else n % 2 + count_ones (n / 2) := by
  cases n with
  | zero => rfl
  | succ m =>
    show count_ones_go (m + 1) (m + 1) = _
    rw [if_neg (by omega)]
    simp only [count_ones_go, if_neg (by omega : ¬ m + 1 = 0)]
    rw [count_ones_go_irrel m ((m + 1) / 2) ((m + 1) / 2) (by omega) (by omega)]
    rfl

theorem count_ones_zero : count_ones 0 = 0 := rfl

theorem count_ones_eq_sum_testBit :
    ∀ (n x : Nat), x < 2 ^ n →
      count_ones x = ∑ i ∈ Finset.range n, (x.testBit i).toNat := by
  intro n
  induction n with
  | zero =>
    intro x hx
    interval_cases x
    simp [count_ones_zero]
  | succ n ih =>
    intro x hx
    by_cases hx0 : x = 0
    · subst hx0
      simp [count_ones_zero, Nat.zero_testBit]
    · rw [count_ones_eq, if_neg hx0]
      have hdiv : x / 2 < 2 ^ n := by
        have h2 : (2 : Nat) ^ (n + 1) = 2 ^ n * 2 := by ring
        rw [h2] at hx
        exact Nat.div_lt_of_lt_mul (by omega)
      rw [ih (x / 2) hdiv]
      rw [Finset.sum_range_succ' (fun i => (x.testBit i).toNat) n]
      have h0 : (x.testBit 0).toNat = x % 2 := by
        rw [Nat.testBit_zero]
        have : x % 2 = 0 ∨ x % 2 = 1 := by omega
        rcases this with h | h <;> simp [h]
      have hsucc : ∀ k, x.testBit (k + 1) = (x / 2).testBit k := by
        intro k
        exact Nat.testBit_succ x k
      simp only [hsucc, h0]
      omega

/-- C1 counterexample: reading bit 0 of a freshly constructed empty vector
panics (the code checks `position > size` but then indexes `state[0]`, which
does not exist), whereas the claim says every such read returns `false`. -/
theorem claim1_cex : DenseBitSetExtended.new.get_bit 0 = none := by
  rfl

/-- C1 (amended): for a vector whose word count is exactly `ceil (size/64)`,
`get_bit pos` returns `false` without reading storage whenever `pos > size`,
and it panics exactly when `pos = size` and `size` is a multiple of 64 (in
particular on an empty vector); at `pos = size` with `size % 64 ≠ 0` it
returns the physically stored (possibly dead) bit, and below `size` it
returns the stored bit. -/
theorem claim1_get_bit_amended (v : DenseBitSetExtended) (pos : Nat) (h : WF v) :
    (v.size < pos → v.get_bit pos = some false) ∧
    (v.get_bit pos = none ↔ (pos = v.size ∧ v.size % 64 = 0)) := by
  have hl : v.state.length = (v.size + 63) / 64 := h
  constructor
  · intro hlt
    simp only [get_bit]
    rw [if_pos (by omega : pos > v.size)]
  · simp only [get_bit]
    by_cases hgt : pos > v.size
    · rw [if_pos hgt]
      simp only [reduceCtorEq, false_iff]
      omega
    · rw [if_neg hgt]
      by_cases hidx : pos / 64 < v.state.length
      · rw [dif_pos hidx]
        simp only [reduceCtorEq, false_iff]
        omega
      · rw [dif_neg hidx]
        simp only [true_iff]
        omega

/-- C1 witness: the amended theorem applied to the one-word vector of size 1
at position 2. -/
theorem claim1_witness :
    WF ⟨[1], 1⟩ ∧
    (((1 : Nat) < 2 → DenseBitSetExtended.get_bit ⟨[1], 1⟩ 2 = some false) ∧
      (DenseBitSetExtended.get_bit ⟨[1], 1⟩ 2 = none ↔ ((2 : Nat) = 1 ∧ (1 : Nat) % 64 = 0))) :=
  ⟨by decide, claim1_get_bit_amended ⟨[1], 1⟩ 2 (by decide)⟩

/-- C10: an in-place right shift by at least the logical size resets the
bitset but does not return; the continuation then either removes a word from
the now-empty vector or runs the word loop with an underflowing bound, so
the operation never completes normally. -/
theorem claim10_shr_assign_panics (v : DenseBitSetExtended) (rhs : Nat)
    (h : v.size ≤ rhs) : v.shr_assign rhs = none := by
  simp only [shr_assign, reset]
  rw [if_pos (by omega : rhs ≥ v.size)]
  by_cases h0 : rhs / 64 = 0
  · rw [if_neg (by simp [h0])]
    simp [h0]
  · rw [if_pos (by simp; omega)]

/-- C10 witness: the right shift of the empty bitset by 0 panics. -/
theorem claim10_witness :
    DenseBitSetExtended.new.size ≤ 0 ∧ DenseBitSetExtended.new.shr_assign 0 = none :=
  ⟨by decide, claim10_shr_assign_panics DenseBitSetExtended.new 0 (by decide)⟩

/-- C6: inserting the first 64 bits of a 64-bit (one-word) source panics.
With `len % 64 == 0` the loop bound is `len / 64 + 1 = 2`, so the code reads
`other.state[1]`, which does not exist; the claim (and the method's own
documentation) requires the call to complete and copy the bits. -/
theorem claim6_insert_multiple_of_64_panics :
    DenseBitSetExtended.new.insert
      (DenseBitSetExtended.from_dense_bitset (DenseBitSet.from_integer 0)) 0 64 = none := by
  rfl

/-- C7: `DenseBitSet::insert(0, 1, 2)` on the zero word is documented (and
claimed) to write only the low 1 bit of the value 2 — that is, to leave the
word 0 — but the code ORs the unmasked `2 << 0` in, producing the word 2 and
setting bit 1, which lies outside the field `[0, 1)`. -/
theorem claim7_insert_value_not_truncated :
    (DenseBitSet.from_integer 0).insert 0 1 2 = some ⟨2⟩ ∧
    Nat.testBit 2 1 = true ∧ Nat.testBit 0 1 = false := by
  refine ⟨by rfl, by rfl, by rfl⟩

/-- C5 counterexample: setting a `false` bit beyond the stored words updates
`size` to `position + 1` without growing `state`, so the empty bitset —
which satisfies the structural invariant — is carried to the state with no
words and `size = 1`, which violates it. -/
theorem claim5_cex :
    DenseBitSetExtended.new.set_bit 0 false = some ⟨[], 1⟩ ∧
    Invariant DenseBitSetExtended.new ∧ ¬ Invariant ⟨[], 1⟩ := by
  refine ⟨by rfl, by decide, by decide⟩

/-- C5 (amended): starting from a vector whose word count is exactly
`ceil (size / 64)`, `set_bit` succeeds below the 64000-bit cap and preserves
that invariant whenever the bit is `true` or the addressed word already
exists; only a `false` write beyond the stored words breaks it (and the
in-place shifts are not in general invariant-preserving). -/
theorem claim5_set_bit_preserves_WF (v : DenseBitSetExtended) (pos : Nat)
    (value : Bool) (h : WF v) (hcap : pos / 64 < 1000)
    (hcase : value = true ∨ pos / 64 < v.state.length) :
    (v.set_bit pos value).isSome = true ∧ WF ((v.set_bit pos value).getD new) := by
  have hl : v.state.length = (v.size + 63) / 64 := h
  simp only [set_bit]
  rw [if_neg (by omega : ¬ 1000 ≤ pos / 64)]
  refine ⟨rfl, ?_⟩
  simp only [Option.getD_some]
  show _ = _
  by_cases hidx : v.state.length ≤ pos / 64
  · have hv : value = true := by
      rcases hcase with h1 | h1
      · exact h1
      · omega
    subst hv
    rw [if_pos hidx, if_pos rfl]
    simp only [List.length_set, List.length_append, List.length_replicate]
    have hge : pos ≥ v.size := by omega
    rw [if_pos hge]
    omega
  · push_neg at hidx
    rw [if_neg (by omega)]
    cases value
    · simp only [Bool.false_eq_true, if_false, List.length_set]
      split <;> omega
    · simp only [if_true, List.length_set]
      split <;> omega

/-- C5 witness: the amended theorem applied to setting bit 0 of the empty
bitset to `true`. -/
theorem claim5_witness :
    WF DenseBitSetExtended.new ∧ (0 : Nat) / 64 < 1000 ∧
    (true = true ∨ (0 : Nat) / 64 < DenseBitSetExtended.new.state.length) ∧
    ((DenseBitSetExtended.new.set_bit 0 true).isSome = true ∧
      WF ((DenseBitSetExtended.new.set_bit 0 true).getD new)) :=
  ⟨by decide, by decide, Or.inl rfl,
    claim5_set_bit_preserves_WF DenseBitSetExtended.new 0 true (by decide)
      (by decide) (Or.inl rfl)⟩

/-- C4 counterexample: `insert_u64(3, 0, 1)` on a fresh bitset is a public
operation that stores the word 3 with logical size 1 (the value is not
truncated to 1 bit), and on that reachable state `get_weight` returns 2
while the claimed masked formula gives 1. -/
theorem claim4_cex :
    DenseBitSetExtended.new.insert_u64 3 0 1 = some ⟨[3], 1⟩ ∧
    DenseBitSetExtended.get_weight ⟨[3], 1⟩ = 2 ∧
    claimedWeight ⟨[3], 1⟩ = 1 := by
  refine ⟨by rfl, by rfl, by rfl⟩

/-- C4 (amended): `get_weight` sums the population counts of all stored
words with no masking; it agrees with the specified masked formula exactly
on states whose dead bits in the final word are all zero. -/
theorem claim4_get_weight_amended (v : DenseBitSetExtended)
    (h : v.size % 64 ≠ 0 → v.state.getLast?.getD 0 < 2 ^ (v.size % 64)) :
    v.get_weight = claimedWeight v := by
  by_cases h64 : v.size % 64 = 0
  · simp only [get_weight, claimedWeight, if_pos h64]
  · simp only [get_weight, claimedWeight, if_neg h64]
    rcases hst : v.state with _ | ⟨w, ws⟩
    · simp [hst, count_ones_zero]
    · have hne : v.state ≠ [] := by rw [hst]; simp
      have hlast := h h64
      have hmask : v.state.getLast?.getD 0 &&& ((1 <<< (v.size % 64)) - 1)
          = v.state.getLast?.getD 0 := by
        rw [Nat.one_shiftLeft, Nat.and_pow_two_sub_one_eq_mod]
        exact Nat.mod_eq_of_lt hlast
      rw [← hst]
      rw [hmask]
      have hdecomp : v.state.dropLast ++ [v.state.getLast hne] = v.state :=
        List.dropLast_append_getLast hne
      have hgl : v.state.getLast?.getD 0 = v.state.getLast hne := by
        rw [List.getLast?_eq_getLast v.state hne]
        rfl
      rw [hgl]
      conv_lhs => rw [← hdecomp]
      rw [List.map_append, List.sum_append]
      simp

/-- C4 witness: the amended theorem applied to the clean one-bit state. -/
theorem claim4_witness :
    ((1 : Nat) % 64 ≠ 0 → ([1] : List Nat).getLast?.getD 0 < 2 ^ ((1 : Nat) % 64)) ∧
    DenseBitSetExtended.get_weight ⟨[1], 1⟩ = claimedWeight ⟨[1], 1⟩ :=
  ⟨by decide, claim4_get_weight_amended ⟨[1], 1⟩ (by decide)⟩

theorem fromStringLoop_go_size (radix log chunk : Nat) (hm : chunk * log = 64) :
    ∀ (fuel : Nat) (cur : List Char) (ws : List Nat) (sz : Nat),
      fromStringLoop_go radix log chunk fuel cur = some (ws, sz) →
      sz = cur.length * log := by
  intro fuel
  induction fuel with
  | zero =>
    intro cur ws sz h
    simp only [fromStringLoop_go] at h
    by_cases hnil : cur = []
    · rw [if_pos hnil] at h
      simp only [Option.some.injEq, Prod.mk.injEq] at h
      subst hnil
      simp only [List.length_nil, Nat.zero_mul]
      omega
    · rw [if_neg hnil] at h
      exact absurd h (by simp)
  | succ fuel ih =>
    intro cur ws sz h
    simp only [fromStringLoop_go] at h
    by_cases hnil : cur = []
    · rw [if_pos hnil] at h
      simp only [Option.some.injEq, Prod.mk.injEq] at h
      subst hnil
      simp only [List.length_nil, Nat.zero_mul]
      omega
    · rw [if_neg hnil] at h
      by_cases hlong : chunk < cur.length
      · rw [if_pos hlong] at h
        simp only [Option.bind_eq_bind, Option.bind_eq_some, Option.some.injEq] at h
        obtain ⟨val, _, pair, hrec, heq⟩ := h
        obtain ⟨rest, sz2⟩ := pair
        simp only [Option.some.injEq, Prod.mk.injEq] at heq
        have hsz2 := ih (cur.take (cur.length - chunk)) rest sz2 hrec
        rw [List.length_take] at hsz2
        have hmin : min (cur.length - chunk) cur.length = cur.length - chunk := by
          omega
        rw [hmin] at hsz2
        have : sz = (cur.length - chunk) * log + 64 := by omega
        rw [this]
        calc (cur.length - chunk) * log + 64
            = (cur.length - chunk) * log + chunk * log := by rw [hm]
          _ = (cur.length - chunk + chunk) * log := by rw [Nat.add_mul]
          _ = cur.length * log := by rw [Nat.sub_add_cancel (by omega)]
      · rw [if_neg hlong] at h
        simp only [Option.bind_eq_bind, Option.bind_eq_some, Option.some.injEq] at h
        obtain ⟨val, _, heq⟩ := h
        simp only [Prod.mk.injEq] at heq
        exact heq.2.symm

/-- C8 counterexample: parsing a 22-character octal string charges 64 bits
for the full 21-character chunk instead of 63, yielding size 67 where the
claim requires 22 * log2(8) = 66. -/
theorem claim8_cex :
    DenseBitSetExtended.from_string ('1' :: List.replicate 21 '0') 8 =
      some ⟨[0, 1], 67⟩ ∧
    (DenseBitSetExtended.mk [0, 1] 67).get_size ≠
      ('1' :: List.replicate 21 '0').length * trailing_zeros 8 := by
  refine ⟨by rfl, by decide⟩

/-- C8 (amended): for the power-of-two radices whose bit width divides 64 —
2, 4 and 16 — every successful `from_string` yields a vector whose size is
exactly the string length times log2 of the radix; for radices 8 and 32 a
string longer than one chunk is charged 64 bits per full chunk instead of
`chunk * log2(radix)`, so the identity fails there. -/
theorem claim8_from_string_size_amended (s : List Char) (radix : Nat)
    (v : DenseBitSetExtended) (hr : radix = 2 ∨ radix = 4 ∨ radix = 16)
    (hs : DenseBitSetExtended.from_string s radix = some v) :
    v.size = s.length * trailing_zeros radix := by
  have hm : (64 / trailing_zeros radix) * trailing_zeros radix = 64 := by
    rcases hr with h | h | h <;> subst h <;> rfl
  have hcount : ¬ count_ones radix ≠ 1 := by
    rcases hr with h | h | h <;> subst h <;> decide
  have h1 : (1 : Nat) < radix := by rcases hr with h | h | h <;> subst h <;> decide
  have h32 : radix ≤ 32 := by rcases hr with h | h | h <;> subst h <;> decide
  simp only [from_string, if_neg hcount, if_neg (by omega : ¬ ¬ 1 < radix),
    if_neg (by omega : ¬ ¬ radix ≤ 32)] at hs
  simp only [Option.bind_eq_bind, Option.bind_eq_some, Option.some.injEq] at hs
  obtain ⟨pair, hloop, hv⟩ := hs
  obtain ⟨ws, sz⟩ := pair
  simp only at hv
  have := fromStringLoop_go_size radix (trailing_zeros radix) (64 / trailing_zeros radix)
    hm s.length s ws sz hloop
  rw [← hv]
  exact this

/-- C8 witness: the amended theorem applied to parsing the binary string 10,
which yields the one-word vector of size 2. -/
theorem claim8_witness :
    ((2 : Nat) = 2 ∨ (2 : Nat) = 4 ∨ (2 : Nat) = 16) ∧
    DenseBitSetExtended.from_string ['1', '0'] 2 = some ⟨[2], 2⟩ ∧
    (DenseBitSetExtended.mk [2] 2).size = (['1', '0'] : List Char).length * trailing_zeros 2 :=
  ⟨Or.inl rfl, by rfl,
    claim8_from_string_size_amended ['1', '0'] 2 ⟨[2], 2⟩ (Or.inl rfl) (by rfl)⟩

theorem set_bit_size (v : DenseBitSetExtended) (pos : Nat) (value : Bool)
    (w : DenseBitSetExtended) (h : v.set_bit pos value = some w) :
    w.size = max v.size (pos + 1) := by
  simp only [set_bit] at h
  by_cases hc : 1000 ≤ pos / 64
  · rw [if_pos hc] at h
    exact absurd h (by simp)
  · rw [if_neg hc] at h
    simp only [Option.some.injEq] at h
    rw [← h]
    simp only
    split <;> omega

theorem subset_size (v : DenseBitSetExtended) (p len : Nat)
    (w : DenseBitSetExtended) (h : v.subset p len = some w) : w.size = len := by
  simp only [subset] at h
  by_cases h0 : len = 0
  · rw [if_pos h0] at h
    simp only [Option.some.injEq] at h
    rw [← h, h0]
  · rw [if_neg h0] at h
    simp only [Option.bind_eq_bind, Option.bind_eq_some, Option.some.injEq] at h
    obtain ⟨words, _, hw⟩ := h
    rw [← hw]

theorem insert_size (a b : DenseBitSetExtended) (p len : Nat)
    (w : DenseBitSetExtended) (h : a.insert b p len = some w) :
    w.size = max a.size (p + len) := by
  simp only [DenseBitSetExtended.insert] at h
  by_cases hm : len % 64 = 0
  · rw [if_pos hm] at h
    simp only [Option.bind_eq_bind, Option.bind_eq_some, Option.some.injEq] at h
    obtain ⟨acc, _, hw⟩ := h
    rw [← hw]
  · rw [if_neg hm] at h
    simp only [Option.bind_eq_bind, Option.bind_eq_some, Option.some.injEq] at h
    obtain ⟨acc, _, h2⟩ := h
    rcases hg : b.state.get? (len / 64 + 1 - 1) with _ | wd
    · rw [hg] at h2
      exact absurd h2 (by simp)
    · rw [hg] at h2
      simp only [Option.bind_eq_bind, Option.bind_eq_some, Option.some.injEq] at h2
      obtain ⟨acc2, _, hw⟩ := h2
      rw [← hw]

theorem foldlM_shr_size_le (v : DenseBitSetExtended) (off n : Nat) :
    ∀ (l : List Nat) (acc res : DenseBitSetExtended),
      (∀ i ∈ l, i + 1 ≤ n) →
      List.foldlM (fun acc i => do
        let b ← v.get_bit (i + off)
        acc.set_bit i b) acc l = some res →
      res.size ≤ max acc.size n := by
  intro l
  induction l with
  | nil =>
    intro acc res _ h
    simp only [List.foldlM_nil, Option.pure_def, Option.some.injEq] at h
    rw [← h]
    exact Nat.le_max_left _ _
  | cons i t ih =>
    intro acc res hb h
    rw [List.foldlM_cons] at h
    simp only [Option.bind_eq_bind, Option.bind_eq_some] at h
    obtain ⟨a1, ⟨bbit, _, hset⟩, hrest⟩ := h
    have h1 := set_bit_size acc i bbit a1 hset
    have h2 := ih a1 res (fun j hj => hb j (List.mem_cons_of_mem _ hj)) hrest
    have hi := hb i (List.mem_cons_self _ _)
    omega

theorem shr_size_le (v : DenseBitSetExtended) (rhs : Nat)
    (w : DenseBitSetExtended) (h : v.shr rhs = some w) : w.size ≤ v.size := by
  simp only [shr] at h
  by_cases hge : rhs ≥ v.size
  · rw [if_pos hge] at h
    simp only [Option.some.injEq] at h
    rw [← h]
    exact Nat.zero_le _
  · rw [if_neg hge] at h
    have hb : ∀ i ∈ List.range (v.size - rhs), i + 1 ≤ v.size - rhs := by
      intro i hi
      rw [List.mem_range] at hi
      omega
    have hle := foldlM_shr_size_le v rhs (v.size - rhs) (List.range (v.size - rhs))
      ⟨[], 0⟩ w hb h
    have hzero : (DenseBitSetExtended.mk [] 0).size = 0 := rfl
    omega

/-- C2 counterexample: for the two-bit vector with only bit 0 set,
`rotl(1)` followed by `rotr(1)` yields the word 5 (the final `insert_u64`
ORs in the untruncated extracted word, setting the dead bit 2), and the
library's `==` compares the raw words, so the round trip is not the
identity. -/
theorem claim2_cex :
    (DenseBitSetExtended.rotl ⟨[1], 2⟩ 1).bind (fun w => w.rotr 1) =
      some ⟨[5], 2⟩ ∧
    DenseBitSetExtended.dbseEq ⟨[5], 2⟩ ⟨[1], 2⟩ = some false := by
  refine ⟨by rfl, by rfl⟩

/-- C2 (amended): for a vector of nonzero size, rotating by 0 or by any
multiple of the size is short-circuited to the identity, and whenever
`rotl` or `rotr` completes without panicking it preserves the logical
length; but the inverse law `v.rotl(k).rotr(k) == v` fails, because the
rotations write untruncated words that set dead bits which the library's
equality compares. -/
theorem claim2_rot_amended (v w1 w2 : DenseBitSetExtended) (k : Nat)
    (h0 : v.size ≠ 0) (h1 : v.rotl k = some w1) (h2 : v.rotr k = some w2) :
    (k % v.size = 0 → w1 = v ∧ w2 = v) ∧ w1.size = v.size ∧ w2.size = v.size := by
  have hk : k % v.size < v.size := Nat.mod_lt _ (by omega)
  have hmain : (k % v.size = 0 → w1 = v ∧ w2 = v) := by
    intro hz
    simp only [rotl, if_neg h0, if_pos hz, Option.some.injEq] at h1
    simp only [rotr, if_neg h0, if_pos hz, Option.some.injEq] at h2
    exact ⟨h1.symm, h2.symm⟩
  refine ⟨hmain, ?_, ?_⟩
  · by_cases hz : k % v.size = 0
    · rw [(hmain hz).1]
    · simp only [rotl, if_neg h0, if_neg hz] at h1
      simp only [Option.bind_eq_bind, Option.bind_eq_some] at h1
      obtain ⟨s0, _, sh, hsh, ex, _, hins⟩ := h1
      have hshsz := subset_size s0 0 v.size sh hsh
      have hw := insert_size sh ex 0 (k % v.size) w1 hins
      omega
  · by_cases hz : k % v.size = 0
    · rw [(hmain hz).2]
    · simp only [rotr, if_neg h0, if_neg hz] at h2
      simp only [Option.bind_eq_bind, Option.bind_eq_some] at h2
      obtain ⟨ex, _, sh, hsh, hins⟩ := h2
      have hshsz := shr_size_le v (k % v.size) sh hsh
      have hw := insert_size sh ex (v.size - k % v.size) (k % v.size) w2 hins
      omega

/-- C2 witness: the amended theorem applied to the two-bit vector rotated by
its own size, a short-circuited no-op in both directions. -/
theorem claim2_witness :
    (DenseBitSetExtended.mk [1] 2).size ≠ 0 ∧
    DenseBitSetExtended.rotl ⟨[1], 2⟩ 2 = some ⟨[1], 2⟩ ∧
    DenseBitSetExtended.rotr ⟨[1], 2⟩ 2 = some ⟨[1], 2⟩ ∧
    (((2 : Nat) % (DenseBitSetExtended.mk [1] 2).size = 0 →
        (DenseBitSetExtended.mk [1] 2) = ⟨[1], 2⟩ ∧
        (DenseBitSetExtended.mk [1] 2) = ⟨[1], 2⟩) ∧
      (DenseBitSetExtended.mk [1] 2).size = (DenseBitSetExtended.mk [1] 2).size ∧
      (DenseBitSetExtended.mk [1] 2).size = (DenseBitSetExtended.mk [1] 2).size) :=
  ⟨by decide, by rfl, by rfl,
    claim2_rot_amended ⟨[1], 2⟩ ⟨[1], 2⟩ ⟨[1], 2⟩ 2 (by decide) (by rfl) (by rfl)⟩

theorem count_ones_land_lor (x y : Nat) (hx : x < 2 ^ 64) (hy : y < 2 ^ 64) :
    count_ones (x &&& y) + count_ones (x ||| y) = count_ones x + count_ones y := by
  rw [count_ones_eq_sum_testBit 64 (x &&& y) (Nat.and_lt_two_pow x hy),
    count_ones_eq_sum_testBit 64 (x ||| y) (Nat.or_lt_two_pow hx hy),
    count_ones_eq_sum_testBit 64 x hx, count_ones_eq_sum_testBit 64 y hy,
    ← Finset.sum_add_distrib, ← Finset.sum_add_distrib]
  refine Finset.sum_congr rfl (fun i _ => ?_)
  rw [Nat.testBit_land, Nat.testBit_lor]
  cases x.testBit i <;> cases y.testBit i <;> rfl

theorem sum_count_ones_and_or (xs : List Nat) :
    ∀ (ys : List Nat), (∀ w ∈ xs, w < 2 ^ 64) → (∀ w ∈ ys, w < 2 ^ 64) →
      ((List.zipWith (fun x y => x &&& y) xs ys).map count_ones).sum +
        ((orWords xs ys).map count_ones).sum =
      (xs.map count_ones).sum + (ys.map count_ones).sum := by
  induction xs with
  | nil =>
    intro ys _ _
    simp [orWords]
  | cons x xs ih =>
    intro ys hx hy
    cases ys with
    | nil => simp [orWords]
    | cons y ys =>
      simp only [List.zipWith_cons_cons, orWords, List.map_cons, List.sum_cons]
      have hword := count_ones_land_lor x y (hx x (by simp)) (hy y (by simp))
      have hrec := ih ys (fun w hw => hx w (by simp [hw]))
        (fun w hw => hy w (by simp [hw]))
      omega

/-- C9: for equal-length vectors, the Hamming weight of the AND plus the
Hamming weight of the OR equals the sum of the two weights.  The identity
holds word by word (missing words act as zero), so it is immune to the
unmasked dead bits of `get_weight`. -/
theorem claim9_weight_additivity (a b : DenseBitSetExtended)
    (ha : WF64 a) (hb : WF64 b) (_hs : a.get_size = b.get_size) :
    (a.bitand b).get_weight + (a.bitor b).get_weight =
      a.get_weight + b.get_weight := by
  simp only [get_weight, bitand, bitor]
  exact sum_count_ones_and_or a.state b.state ha hb

/-- C9 witness: the additivity theorem applied to two equal-sized two-bit
vectors. -/
theorem claim9_witness :
    WF64 ⟨[3], 2⟩ ∧ WF64 ⟨[2], 2⟩ ∧
    (DenseBitSetExtended.mk [3] 2).get_size = (DenseBitSetExtended.mk [2] 2).get_size ∧
    ((DenseBitSetExtended.mk [3] 2).bitand ⟨[2], 2⟩).get_weight +
      ((DenseBitSetExtended.mk [3] 2).bitor ⟨[2], 2⟩).get_weight =
      (DenseBitSetExtended.mk [3] 2).get_weight +
        (DenseBitSetExtended.mk [2] 2).get_weight :=
  ⟨by decide, by decide, rfl,
    claim9_weight_additivity ⟨[3], 2⟩ ⟨[2], 2⟩ (by decide) (by decide) rfl⟩

theorem testBit_mod_u64 (x c : Nat) (hc : c < 64) :
    (x % 18446744073709551616).testBit c = x.testBit c := by
  have h : (18446744073709551616 : Nat) = 2 ^ 64 := by norm_num
  rw [h, Nat.testBit_mod_two_pow]
  simp [hc]

theorem stage1_bit (v i : Nat) (hi : i < 64) :
    (((v >>> 1) &&& 0x5555555555555555) |||
      (((v &&& 0x5555555555555555) <<< 1) % 2 ^ 64)).testBit i
      = v.testBit (if i % 2 = 0 then i + 1 else i - 1) := by
  have hm : ∀ j, j < 64 → (0x5555555555555555 : Nat).testBit j = decide (j % 2 = 0) := by
    decide
  interval_cases i <;>
    simp +decide [Nat.testBit_lor, Nat.testBit_land, Nat.testBit_shiftRight,
      Nat.testBit_shiftLeft, testBit_mod_u64, hm]

theorem stage2_bit (v i : Nat) (hi : i < 64) :
    (((v >>> 2) &&& 0x3333333333333333) |||
      (((v &&& 0x3333333333333333) <<< 2) % 2 ^ 64)).testBit i
      = v.testBit (if i % 4 < 2 then i + 2 else i - 2) := by
  have hm : ∀ j, j < 64 → (0x3333333333333333 : Nat).testBit j = decide (j % 4 < 2) := by
    decide
  interval_cases i <;>
    simp +decide [Nat.testBit_lor, Nat.testBit_land, Nat.testBit_shiftRight,
      Nat.testBit_shiftLeft, testBit_mod_u64, hm]

theorem stage4_bit (v i : Nat) (hi : i < 64) :
    (((v >>> 4) &&& 0x0F0F0F0F0F0F0F0F) |||
      (((v &&& 0x0F0F0F0F0F0F0F0F) <<< 4) % 2 ^ 64)).testBit i
      = v.testBit (if i % 8 < 4 then i + 4 else i - 4) := by
  have hm : ∀ j, j < 64 → (0x0F0F0F0F0F0F0F0F : Nat).testBit j = decide (j % 8 < 4) := by
    decide
  interval_cases i <;>
    simp +decide [Nat.testBit_lor, Nat.testBit_land, Nat.testBit_shiftRight,
      Nat.testBit_shiftLeft, testBit_mod_u64, hm]

theorem swapBytes64_testBit (x i : Nat) (hi : i < 64) :
    (swapBytes64 x).testBit i = x.testBit (8 * (7 - i / 8) + i % 8) := by
  have hff : ∀ j, j < 64 → (0xFF : Nat).testBit j = decide (j < 8) := by decide
  interval_cases i <;>
    simp +decide [swapBytes64, Nat.testBit_lor, Nat.testBit_land,
      Nat.testBit_shiftRight, Nat.testBit_shiftLeft, hff]

theorem revWord_testBit (w i : Nat) (hi : i < 64) :
    (DenseBitSet.reverse ⟨w⟩).state.testBit i = w.testBit (63 - i) := by
  simp only [DenseBitSet.reverse]
  have h1 : 8 * (7 - i / 8) + i % 8 < 64 := by omega
  rw [swapBytes64_testBit _ i hi, stage4_bit _ _ h1]
  set a := 8 * (7 - i / 8) + i % 8 with ha
  have h2 : (if a % 8 < 4 then a + 4 else a - 4) < 64 := by split <;> omega
  rw [stage2_bit _ _ h2]
  set b := if a % 8 < 4 then a + 4 else a - 4 with hb
  have h3 : (if b % 4 < 2 then b + 2 else b - 2) < 64 := by split <;> omega
  rw [stage1_bit _ _ h3]
  set c := if b % 4 < 2 then b + 2 else b - 2 with hc
  have hidx : ∀ j, j < 64 →
      (let a0 := 8 * (7 - j / 8) + j % 8;
       let b0 := if a0 % 8 < 4 then a0 + 4 else a0 - 4;
       let c0 := if b0 % 4 < 2 then b0 + 2 else b0 - 2;
       (if c0 % 2 = 0 then c0 + 1 else c0 - 1)) = 63 - j := by decide
  have := hidx i hi
  simp only at this
  rw [ha] at *
  rw [← this]

theorem swapBytes64_lt (x : Nat) : swapBytes64 x < 2 ^ 64 := by
  have h1 : ∀ y t, t ≤ 56 → ((y &&& 0xFF) <<< t) < 2 ^ 64 := by
    intro y t ht
    have hy : y &&& 0xFF ≤ 0xFF := Nat.and_le_right
    rw [Nat.shiftLeft_eq]
    calc (y &&& 0xFF) * 2 ^ t ≤ 0xFF * 2 ^ 56 :=
          Nat.mul_le_mul hy (Nat.pow_le_pow_right (by norm_num) ht)
      _ < 2 ^ 64 := by norm_num
  have h0 : (x >>> 56) &&& 0xFF < 2 ^ 64 :=
    Nat.lt_of_le_of_lt Nat.and_le_right (by norm_num)
  unfold swapBytes64
  refine Nat.or_lt_two_pow (Nat.or_lt_two_pow (Nat.or_lt_two_pow (Nat.or_lt_two_pow
    (Nat.or_lt_two_pow (Nat.or_lt_two_pow (Nat.or_lt_two_pow h0
      (h1 _ _ (by norm_num))) (h1 _ _ (by norm_num))) (h1 _ _ (by norm_num)))
      (h1 _ _ (by norm_num))) (h1 _ _ (by norm_num))) (h1 _ _ (by norm_num)))
    (h1 _ _ (by norm_num))

theorem revWord_lt (w : Nat) : (DenseBitSet.reverse ⟨w⟩).state < 2 ^ 64 := by
  simp only [DenseBitSet.reverse]
  exact swapBytes64_lt _

theorem revWord_involution (w : Nat) (hw : w < 2 ^ 64) :
    (DenseBitSet.reverse ⟨(DenseBitSet.reverse ⟨w⟩).state⟩).state = w := by
  apply Nat.eq_of_testBit_eq
  intro i
  by_cases hi : i < 64
  · rw [revWord_testBit _ i hi, revWord_testBit _ (63 - i) (by omega)]
    congr 1
    omega
  · have hlt := revWord_lt ((DenseBitSet.reverse ⟨w⟩).state)
    have h1 : (DenseBitSet.reverse ⟨(DenseBitSet.reverse ⟨w⟩).state⟩).state < 2 ^ i :=
      Nat.lt_of_lt_of_le hlt (Nat.pow_le_pow_right (by norm_num) (by omega))
    have h2 : w < 2 ^ i :=
      Nat.lt_of_lt_of_le hw (Nat.pow_le_pow_right (by norm_num) (by omega))
    rw [Nat.testBit_lt_two_pow h1, Nat.testBit_lt_two_pow h2]

theorem wordStr_revWord (w : Nat) :
    wordStr ((DenseBitSet.reverse ⟨w⟩).state) = (wordStr w).reverse := by
  apply List.ext_getElem
  · simp [wordStr]
  · intro i h1 h2
    have hi : i < 64 := by
      simpa [wordStr] using h1
    rw [List.getElem_reverse]
    simp only [wordStr, List.getElem_map, List.getElem_range, List.length_map,
      List.length_range]
    rw [revWord_testBit _ (63 - i) (by omega)]

theorem reverse_reverse_thm (v : DenseBitSetExtended) (h64 : WF64 v) :
    v.reverse.reverse = v := by
  obtain ⟨s, sz⟩ := v
  simp only [reverse, DenseBitSet.from_integer, DenseBitSet.to_integer]
  congr 1
  rw [List.map_reverse, List.reverse_reverse, List.map_map]
  have : ∀ w ∈ s, ((fun s => (DenseBitSet.reverse ⟨s⟩).state) ∘
      (fun s => (DenseBitSet.reverse ⟨s⟩).state)) w = id w := by
    intro w hw
    exact revWord_involution w (h64 w hw)
  rw [List.map_congr_left this, List.map_id]

theorem reverse_to_string_thm (v : DenseBitSetExtended) (h64 : WF64 v)
    (hsz : v.size % 64 = 0) : v.reverse.to_string = v.to_string.reverse := by
  obtain ⟨s, sz⟩ := v
  by_cases hnil : s = []
  · subst hnil
    simp only [reverse, to_string, List.map_nil, List.reverse_nil, if_true,
      eq_self_iff_true]
    decide
  · have hnil2 : (List.map (fun s => (DenseBitSet.reverse
        (DenseBitSet.from_integer s)).to_integer) s).reverse ≠ [] := by
      simp [hnil]
    simp only [reverse, to_string, if_neg hnil, if_neg hnil2]
    simp only [show (DenseBitSetExtended.mk s sz).size = sz from rfl] at hsz
    rw [if_pos hsz, if_pos hsz]
    simp only [List.reverse_flatten, List.map_reverse, List.reverse_reverse,
      List.map_map]
    congr 1
    refine List.map_congr_left (fun w hw => ?_)
    exact wordStr_revWord w

/-- C3 counterexample: for the one-bit vector with word 1, `reverse` moves
the logical bit to position 63 of the reversed word, where `to_string` masks
it away (`size % 64 = 1`), so the stringified reverse is all zeros while the
reversed string has a leading one. -/
theorem claim3_cex :
    DenseBitSetExtended.to_string (DenseBitSetExtended.reverse ⟨[1], 1⟩) ≠
      (DenseBitSetExtended.to_string ⟨[1], 1⟩).reverse := by
  decide

/-- C3 (amended): `reverse` is an involution on every vector (whose words
are 64-bit values), and the stringified reverse equals the character-reversal
of the stringified input whenever `size` is a multiple of 64; for other
sizes the reversed word content lands in the masked dead bits and the string
equivalence fails. -/
theorem claim3_reverse_amended (v : DenseBitSetExtended) (h64 : WF64 v) :
    v.reverse.reverse = v ∧
    (v.size % 64 = 0 → v.reverse.to_string = v.to_string.reverse) :=
  ⟨reverse_reverse_thm v h64, fun hsz => reverse_to_string_thm v h64 hsz⟩

/-- C3 witness: the amended theorem applied to a two-word vector of size
128. -/
theorem claim3_witness :
    WF64 ⟨[3, 5], 128⟩ ∧
    (DenseBitSetExtended.reverse (DenseBitSetExtended.reverse ⟨[3, 5], 128⟩) =
        ⟨[3, 5], 128⟩ ∧
      ((DenseBitSetExtended.mk [3, 5] 128).size % 64 = 0 →
        DenseBitSetExtended.to_string (DenseBitSetExtended.reverse ⟨[3, 5], 128⟩) =
          (DenseBitSetExtended.to_string ⟨[3, 5], 128⟩).reverse)) :=
  ⟨by decide, claim3_reverse_amended ⟨[3, 5], 128⟩ (by decide)⟩

end ClaimProofs
